import Mathlib

/-!
# Verification of `llm_with_kv_cache.ipynb`

A shallow embedding of the decoder-only Transformer with KV cache from
`llm_with_kv_cache.ipynb`, together with proofs of the specified properties
(cache/no-cache equivalence, greedy-decoding equivalence, causal masking,
layer wiring, position ids, cache-length invariants, error behavior and
cache-prefix preservation).

Numeric model: tensors of real numbers are embedded as rational-valued
vectors (`Fin H → ℚ`) and lists of such vectors along the sequence axis.
The transcendental primitives used by the code (`torch.exp` inside softmax,
`math.sqrt`, the GELU activation) are abstracted as an arbitrary bundle of
functions `Prims`; every theorem is proved for all such bundles, hence in
particular for the real-valued ones.  Floating-point rounding is not
modelled: equalities proved here are exact, which implies the `1e-5`
tolerance statements of the specification.  Dropout layers are modelled at
inference time (`model.eval()`), where they are the identity.
-/

/-- A vector of `n` rational numbers: one row of a PyTorch tensor. -/
abbrev Vec (n : Nat) := Fin n → ℚ

/-- The all-zeros vector, used as the (never relevant) `List.getD` default. -/
def zeroV {H : Nat} : Vec H := fun _ => 0

/-- Dot product of two vectors. -/
def dot {H : Nat} (x y : Vec H) : ℚ := ∑ i, x i * y i

/-- The transcendental primitives used by the notebook, abstracted:
`exp` (inside `torch.softmax`), `sqrt` (`math.sqrt` and the square root
inside `std`/`nn.LayerNorm`) and the GELU activation `nn.GELU`.
All theorems hold for every choice of these functions. -/
structure Prims where
  exp : ℚ → ℚ
  sqrt : ℚ → ℚ
  gelu : ℚ → ℚ

/-- `torch.nn.Linear(inF, outF)`: an affine map given by a weight matrix and
a bias vector. -/
structure Linear (inF outF : Nat) where
  weight : Fin outF → Fin inF → ℚ
  bias : Fin outF → ℚ

/-- Application of `nn.Linear`: `y = W x + b`. -/
def Linear.apply {inF outF : Nat} (l : Linear inF outF) (x : Vec inF) : Vec outF :=
  fun o => l.bias o + ∑ i, l.weight o i * x i

/-- `nn.Dropout` in `eval()` mode (all claims are about inference): identity. -/
def dropoutEval {α : Type} (x : α) : α := x

/-- Learned parameters of a layer norm: `gamma` (scale), `beta` (shift) and
the constant `eps`. -/
structure LNParams (H : Nat) where
  gamma : Vec H
  beta : Vec H
  eps : ℚ

/-- Mean of the entries of a vector (over the hidden dimension). -/
def vecMean {H : Nat} (x : Vec H) : ℚ := (∑ i, x i) / (H : ℚ)

/-- The notebook's custom `LayerNorm.forward`:
`(x - mean) / (std + eps) * gamma + beta`, where `std = x.std(dim=-1)` is
torch's *unbiased* standard deviation (denominator `H - 1`) and `eps` is
added directly to the standard deviation. -/
def LayerNormForward {H : Nat} (P : Prims) (ln : LNParams H) (x : Vec H) : Vec H :=
  let m := vecMean x
  let std := P.sqrt ((∑ i, (x i - m) ^ 2) / ((H : ℚ) - 1))
  fun i => (x i - m) / (std + ln.eps) * ln.gamma i + ln.beta i

/-- `torch.nn.LayerNorm` (used for the model's final `ln_f`):
`(x - mean) / sqrt(var + eps) * gamma + beta` where `var` is the *biased*
variance (denominator `H`) and `eps` is added to the variance *before* the
square root.  Modelled from the documented semantics of the PyTorch
library class instantiated at `src` line `self.ln_f = nn.LayerNorm(hidden_size)`. -/
def nnLayerNormForward {H : Nat} (P : Prims) (ln : LNParams H) (x : Vec H) : Vec H :=
  let m := vecMean x
  let var := (∑ i, (x i - m) ^ 2) / (H : ℚ)
  fun i => (x i - m) / P.sqrt (var + ln.eps) * ln.gamma i + ln.beta i

/-- The normalization formula exactly as the specification words it:
"(x - mean) / (std + eps) * scale + shift", with `std` the (unbiased)
standard deviation and `eps` added directly to the standard deviation. -/
def specNormalize {H : Nat} (P : Prims) (ln : LNParams H) (x : Vec H) : Vec H :=
  fun i =>
    (x i - vecMean x) / (P.sqrt ((∑ j, (x j - vecMean x) ^ 2) / ((H : ℚ) - 1)) + ln.eps)
      * ln.gamma i + ln.beta i

/-- `MLP`: `c_fc` (H → F), GELU, `c_proj` (F → H), dropout. -/
structure MLP (H F : Nat) where
  c_fc : Linear H F
  c_proj : Linear F H

/-- `MLP.forward`, applied per position. -/
def MLP.forward {H F : Nat} (P : Prims) (m : MLP H F) (x : Vec H) : Vec H :=
  dropoutEval (m.c_proj.apply (fun j => P.gelu (m.c_fc.apply x j)))

/-- A key/value cache entry of one layer: the pair `(k, v)` of per-position
key and value vectors (each the embedding of a `(total_len, hidden_size)`
tensor). -/
abbrev KV (H : Nat) := List (Vec H) × List (Vec H)

/-- Entry `(r, c)` of `torch.tril(torch.ones(n, n))`: 1 iff `c ≤ r`. -/
def trilEntry (r c : Nat) : Bool := decide (c ≤ r)

/-- Entry `(j, t)` of the causal mask
`torch.tril(torch.ones(1, total_len, total_len))[:, -seq_len:, :]`:
row `j` of the slice of the last `S` rows is row `total - S + j` of the
lower-triangular matrix. -/
def maskEntry (total S j t : Nat) : Bool := trilEntry (total - S + j) t

/-- `torch.softmax` applied after `masked_fill(mask == 0, -inf)`: a masked
score is `-inf` (here `none`), whose exponential is `0`; unmasked scores
are exponentiated, and the row is normalized by its sum. -/
def softmaxRow (exp : ℚ → ℚ) (row : List (Option ℚ)) : List ℚ :=
  (row.map (fun s => s.elim 0 exp)).map
    (fun x => x / (row.map (fun s => s.elim 0 exp)).sum)

/-- One output row of the attention: the masked scores of query row `j`
(out of `S` new rows) against all of `k`, softmaxed and contracted with `v`
(`attn @ v`). -/
def attnRow {H : Nat} (P : Prims) (S j : Nat) (qj : Vec H) (k v : List (Vec H)) : Vec H :=
  (List.zipWith (fun w vt => w • vt)
    (softmaxRow P.exp ((List.range k.length).map (fun t =>
      if maskEntry k.length S j t then some (dot qj (k.getD t zeroV) / P.sqrt (H : ℚ))
      else none))) v).sum

/-- `attnRow` with the causal mask expressed through the attendance limit
`total - S + j` of row `j` (the last column this row may attend to). -/
def attnRowL {H : Nat} (P : Prims) (lim : Nat) (qj : Vec H) (k v : List (Vec H)) : Vec H :=
  (List.zipWith (fun w vt => w • vt)
    (softmaxRow P.exp ((List.range k.length).map (fun t =>
      if t ≤ lim then some (dot qj (k.getD t zeroV) / P.sqrt (H : ℚ)) else none))) v).sum

/-- The q-block of the split `c_attn` output (`split(hidden_size, dim=-1)`,
first slice). -/
def qSlice {H : Nat} (c : Vec (3 * H)) : Vec H :=
  fun i => c ⟨i.val, by omega⟩

/-- The k-block of the split `c_attn` output (second slice). -/
def kSlice {H : Nat} (c : Vec (3 * H)) : Vec H :=
  fun i => c ⟨H + i.val, by omega⟩

/-- The v-block of the split `c_attn` output (third slice). -/
def vSlice {H : Nat} (c : Vec (3 * H)) : Vec H :=
  fun i => c ⟨2 * H + i.val, by omega⟩

/-- `SingleHeadSelfAttention`: combined qkv projection and output projection. -/
structure SingleHeadSelfAttention (H : Nat) where
  c_attn : Linear H (3 * H)
  c_proj : Linear H H

/-- `SingleHeadSelfAttention.forward`.  `xs` holds the (new) positions of the
input `x`; `past_kv`, when present, is the cached `(past_k, past_v)` pair,
concatenated in front of the newly computed keys/values (`torch.cat(dim=1)`).
The hidden-size assertion of the source is enforced by the types.  Returns
the projected attention output together with `new_kv = (k, v)`, the
concatenated key/value pair (the source returns it only under `use_cache`,
without it affecting the output computation). -/
def SingleHeadSelfAttention.forward {H : Nat} (P : Prims) (A : SingleHeadSelfAttention H)
    (xs : List (Vec H)) (past_kv : Option (KV H)) : List (Vec H) × KV H :=
  let cs := xs.map A.c_attn.apply
  let q := cs.map qSlice
  let kNew := cs.map kSlice
  let vNew := cs.map vSlice
  let k := match past_kv with
    | some pkv => pkv.1 ++ kNew
    | none => kNew
  let v := match past_kv with
    | some pkv => pkv.2 ++ vNew
    | none => vNew
  let S := xs.length
  let attnOut := (List.range S).map (fun j => attnRow P S j (q.getD j zeroV) k v)
  let proj := dropoutEval (attnOut.map A.c_proj.apply)
  (proj, (k, v))

/-- `DecoderBlock`: two layer norms, attention and MLP. -/
structure DecoderBlock (H F : Nat) where
  ln_1 : LNParams H
  attn : SingleHeadSelfAttention H
  ln_2 : LNParams H
  mlp : MLP H F

/-- `DecoderBlock.forward`, transcribing the source's sequential updates:
`x = ln_1(x)`; `attn_output, new_kv = attn(x, past_kv)`; `x = x + attn_output`
(the residual is added to the *normalized* value); `x = ln_2(x)`;
`x = x + mlp(x)`. -/
def DecoderBlock.forward {H F : Nat} (P : Prims) (b : DecoderBlock H F)
    (xs : List (Vec H)) (past_kv : Option (KV H)) : List (Vec H) × KV H :=
  let x1 := xs.map (LayerNormForward P b.ln_1)
  let ar := b.attn.forward P x1 past_kv
  let x2 := List.zipWith (fun a c => a + c) x1 ar.1
  let x3 := x2.map (LayerNormForward P b.ln_2)
  let x4 := List.zipWith (fun a c => a + c) x3 (x3.map (MLP.forward P b.mlp))
  (x4, ar.2)

/-- The DecoderLayer contract as the specification words it:
`xA = Normalize(x)`; `a = Attention(xA, cache)`; `xB = xA + a`;
`xC = Normalize(xB)`; `out = xC + FeedForward(xC)`, with the updated cache
entry returned alongside `out`. -/
def decoderLayerSpec {H F : Nat} (P : Prims) (b : DecoderBlock H F)
    (xs : List (Vec H)) (cache : Option (KV H)) : List (Vec H) × KV H :=
  let xA := xs.map (LayerNormForward P b.ln_1)
  let a := b.attn.forward P xA cache
  let xB := List.zipWith (fun u w => u + w) xA a.1
  let xC := xB.map (LayerNormForward P b.ln_2)
  let out := List.zipWith (fun u w => u + w) xC (xC.map (MLP.forward P b.mlp))
  (out, a.2)

/-- `past_len` as computed by `Transformer.forward`:
`past_kvs[0][0].shape[1] if past_kvs else 0` — note Python truthiness:
both `None` and the empty list give `0`. -/
def pastLen {H : Nat} (past : Option (List (KV H))) : Nat :=
  match past with
  | some (kv :: _) => kv.1.length
  | _ => 0

/-- `torch.arange(past_len, past_len + seq_len)`: the position ids used for
the position-embedding lookup. -/
def positionIds (past_len seq_len : Nat) : List Nat := List.range' past_len seq_len

/-- The stack of decoder layers: fold the input through `hidden_layers`,
giving layer `i` the `i`-th entry of `pasts` and collecting the per-layer
`new_kv`s in order. -/
def runLayers {H F : Nat} (P : Prims) :
    List (DecoderBlock H F) → List (Option (KV H)) → List (Vec H) →
      List (Vec H) × List (KV H)
  | [], _, x => (x, [])
  | l :: ls, pasts, x =>
      let r := l.forward P x (pasts.headD none)
      let rest := runLayers P ls pasts.tail r.1
      (rest.1, r.2 :: rest.2)

/-- The `Transformer` model: token and position embedding tables, the layer
stack, the final `nn.LayerNorm` and the language head.  `M` is
`max_seq_len`, the number of rows of the position-embedding table; rows at
index `≥ M` do not exist (lookups beyond are the guarded error case). -/
structure Transformer (H F V M : Nat) where
  token_embed : Fin V → Vec H
  position_embed : Nat → Vec H
  hidden_layers : List (DecoderBlock H F)
  ln_f : LNParams H
  language_head : Linear H V

/-- The always-succeeding part of `Transformer.forward`: embed tokens and
positions (token embedding + position embedding, embedding dropout in eval
mode), run the layer stack, apply the final `nn.LayerNorm` and the language
head. -/
def Transformer.body {H F V M : Nat} (P : Prims) (t : Transformer H F V M)
    (past_len : Nat) (input_ids : List (Fin V)) (pasts : List (Option (KV H))) :
    List (Vec V) × List (KV H) :=
  let x0 := dropoutEval (List.zipWith
    (fun id p => t.token_embed id + t.position_embed p)
    input_ids (positionIds past_len input_ids.length))
  let r := runLayers P t.hidden_layers pasts x0
  ((r.1.map (nnLayerNormForward P t.ln_f)).map t.language_head.apply, r.2)

/-- `Transformer.forward`.  Computes `past_len` from the first layer's cache
entry, position ids `past_len, …, past_len + seq_len - 1`, and runs the
body.  Failure cases (`none`) model the runtime errors of the source: a
position-embedding lookup at index `≥ max_seq_len` (`nn.Embedding`
IndexError), and `past_kvs[i]` indexing past the end of a supplied cache
list shorter than the number of layers.  No other validation is performed. -/
def Transformer.forward {H F V M : Nat} (P : Prims) (t : Transformer H F V M)
    (input_ids : List (Fin V)) (past_kvs : Option (List (KV H))) :
    Option (List (Vec V) × List (KV H)) :=
  let past_len := pastLen past_kvs
  if past_len + input_ids.length ≤ M then
    match past_kvs with
    | none => some (Transformer.body P t past_len input_ids
        (t.hidden_layers.map fun _ => none))
    | some l =>
        if t.hidden_layers.length ≤ l.length then
          some (Transformer.body P t past_len input_ids
            ((l.take t.hidden_layers.length).map some))
        else none
  else none

/-- `torch.argmax` over the vocabulary axis: the first index attaining the
maximum. -/
def argmaxV {V : Nat} [NeZero V] (v : Vec V) : Fin V :=
  (List.finRange V).foldl (fun best i => if v best < v i then i else best)
    ⟨0, Nat.pos_of_ne_zero (NeZero.ne V)⟩

/-- The last position's logits (`logits[:, -1, :]`). -/
def lastLogits {V : Nat} (logits : List (Vec V)) : Vec V :=
  logits.getD (logits.length - 1) zeroV

/-- The loop of `greedy_decode`, running `fuel` steps: re-run the model on
the entire current sequence (no cache), take the arg-max of the last
position's logits, append. -/
def greedyDecodeAux {H F V M : Nat} [NeZero V] (P : Prims) (t : Transformer H F V M) :
    Nat → List (Fin V) → Option (List (Fin V))
  | 0, ids => some ids
  | fuel + 1, ids =>
      match Transformer.forward P t ids none with
      | none => none
      | some r => greedyDecodeAux P t fuel (ids ++ [argmaxV (lastLogits r.1)])

/-- `greedy_decode(model, input_ids, max_len)`: `max_len - len(input_ids)`
full-recompute steps. -/
def greedy_decode {H F V M : Nat} [NeZero V] (P : Prims) (t : Transformer H F V M)
    (input_ids : List (Fin V)) (max_len : Nat) : Option (List (Fin V)) :=
  greedyDecodeAux P t (max_len - input_ids.length) input_ids

/-- The loop of `greedy_decode_with_kv_cache`: run the model on `input_ids`
only, threading `past_kvs`; append the arg-max token to `generated` and feed
only the new token next step. -/
def greedyDecodeKVAux {H F V M : Nat} [NeZero V] (P : Prims) (t : Transformer H F V M) :
    Nat → List (Fin V) → Option (List (KV H)) → List (Fin V) → Option (List (Fin V))
  | 0, _, _, generated => some generated
  | fuel + 1, input_ids, past, generated =>
      match Transformer.forward P t input_ids past with
      | none => none
      | some r =>
          let nt := argmaxV (lastLogits r.1)
          greedyDecodeKVAux P t fuel [nt] (some r.2) (generated ++ [nt])

/-- `greedy_decode_with_kv_cache(model, input_ids, max_len)`. -/
def greedy_decode_with_kv_cache {H F V M : Nat} [NeZero V] (P : Prims)
    (t : Transformer H F V M) (input_ids : List (Fin V)) (max_len : Nat) :
    Option (List (Fin V)) :=
  greedyDecodeKVAux P t (max_len - input_ids.length) input_ids none input_ids

/-- The incremental driver of the cache/no-cache comparison cells: process
the token sequence chunk by chunk, threading the returned per-layer cache
forward and concatenating the logits of each step (`torch.cat(dim=1)`).
Returns the accumulated logits together with the cache after the last
chunk. -/
def runChunksAux {H F V M : Nat} (P : Prims) (t : Transformer H F V M) :
    List (List (Fin V)) → Option (List (KV H)) → List (Vec V) →
      Option (List (Vec V) × Option (List (KV H)))
  | [], past, acc => some (acc, past)
  | c :: cs, past, acc =>
      match Transformer.forward P t c past with
      | none => none
      | some r => runChunksAux P t cs (some r.2) (acc ++ r.1)

/-! ### Concrete instances used in witnesses and counterexamples -/

/-- A concrete primitive bundle for evaluation (the structural claims hold
for every bundle, so any concrete choice may witness them). -/
def P0 : Prims := ⟨fun q => q, fun q => q, fun q => q⟩

/-- An all-zero linear layer. -/
def lin0 (a b : Nat) : Linear a b := ⟨fun _ _ => 0, fun _ => 0⟩

/-- Layer-norm parameters at their initialization (`gamma = 1`, `beta = 0`,
`eps = 1e-5`). -/
def ln0 (n : Nat) : LNParams n := ⟨fun _ => 1, fun _ => 0, 1 / 100000⟩

/-- The concrete hidden vector `(0, 2)`. -/
def x2 : Vec 2 := fun j => (2 : ℚ) * (j.val : ℚ)

def attn0 : SingleHeadSelfAttention 1 := ⟨lin0 1 (3 * 1), lin0 1 1⟩

def mlp0 : MLP 1 1 := ⟨lin0 1 1, lin0 1 1⟩

def block0 : DecoderBlock 1 1 := ⟨ln0 1, attn0, ln0 1, mlp0⟩

/-- A tiny one-layer model (`hidden_size = ff_hidden_size = vocab_size = 1`,
`max_seq_len = 4`). -/
def tf1 : Transformer 1 1 1 4 :=
  ⟨fun _ => zeroV, fun _ => zeroV, [block0], ln0 1, lin0 1 1⟩

/-- A two-layer variant of `tf1`. -/
def tf2 : Transformer 1 1 1 4 :=
  ⟨fun _ => zeroV, fun _ => zeroV, [block0, block0], ln0 1, lin0 1 1⟩

/-- A one-layer model with a two-token vocabulary. -/
def tf3 : Transformer 1 1 2 4 :=
  ⟨fun _ => zeroV, fun _ => zeroV, [block0], ln0 1, lin0 1 2⟩

/-- The unique token of the one-token vocabulary. -/
def t0 : Fin 1 := ⟨0, by omega⟩

/-- A length-1 cache entry. -/
def kv1 : KV 1 := ([zeroV], [zeroV])

/-- A length-2 cache entry. -/
def kv2 : KV 1 := ([zeroV, zeroV], [zeroV, zeroV])

/-! ### Basic shape and length lemmas -/

theorem softmaxRow_length (e : ℚ → ℚ) (row : List (Option ℚ)) :
    (softmaxRow e row).length = row.length := by
  simp [softmaxRow]

theorem attn_out_length {H : Nat} (P : Prims) (A : SingleHeadSelfAttention H)
    (xs : List (Vec H)) (p : Option (KV H)) :
    ((A.forward P xs p).1).length = xs.length := by
  simp [SingleHeadSelfAttention.forward, dropoutEval]

theorem attn_kv_none {H : Nat} (P : Prims) (A : SingleHeadSelfAttention H)
    (xs : List (Vec H)) :
    (A.forward P xs none).2 =
      ((xs.map A.c_attn.apply).map kSlice, (xs.map A.c_attn.apply).map vSlice) := rfl

theorem attn_kv_some {H : Nat} (P : Prims) (A : SingleHeadSelfAttention H)
    (xs : List (Vec H)) (pkv : KV H) :
    (A.forward P xs (some pkv)).2 =
      (pkv.1 ++ (xs.map A.c_attn.apply).map kSlice,
       pkv.2 ++ (xs.map A.c_attn.apply).map vSlice) := rfl

theorem block_out_length {H F : Nat} (P : Prims) (b : DecoderBlock H F)
    (xs : List (Vec H)) (p : Option (KV H)) :
    ((b.forward P xs p).1).length = xs.length := by
  simp [DecoderBlock.forward, attn_out_length]

theorem block_kv {H F : Nat} (P : Prims) (b : DecoderBlock H F)
    (xs : List (Vec H)) (p : Option (KV H)) :
    (b.forward P xs p).2 = (b.attn.forward P (xs.map (LayerNormForward P b.ln_1)) p).2 := rfl

theorem runLayers_out_length {H F : Nat} (P : Prims) (ls : List (DecoderBlock H F))
    (pasts : List (Option (KV H))) (x : List (Vec H)) :
    ((runLayers P ls pasts x).1).length = x.length := by
  induction ls generalizing pasts x with
  | nil => rfl
  | cons l ls ih => simp [runLayers, ih, block_out_length]

theorem runLayers_kv_count {H F : Nat} (P : Prims) (ls : List (DecoderBlock H F))
    (pasts : List (Option (KV H))) (x : List (Vec H)) :
    ((runLayers P ls pasts x).2).length = ls.length := by
  induction ls generalizing pasts x with
  | nil => rfl
  | cons l ls ih => simp [runLayers, ih]

/-! ### The attention row through its attendance limit -/

theorem attnRow_eq_attnRowL {H : Nat} (P : Prims) (S j : Nat) (qj : Vec H)
    (k v : List (Vec H)) :
    attnRow P S j qj k v = attnRowL P (k.length - S + j) qj k v := by
  simp [attnRow, attnRowL, maskEntry, trilEntry]

theorem zipWith_smul_zero_sum {H : Nat} (ws : List ℚ) (vs : List (Vec H))
    (h : ∀ w ∈ ws, w = 0) :
    (List.zipWith (fun w (vt : Vec H) => w • vt) ws vs).sum = 0 := by
  induction ws generalizing vs with
  | nil => simp
  | cons w ws ih =>
    cases vs with
    | nil => simp
    | cons vt vs =>
      have hw : w = 0 := h w (by simp)
      have hrest : ∀ u ∈ ws, u = 0 := fun u hu => h u (by simp [hu])
      simp [hw, ih vs hrest]

theorem softmaxRow_append_none (e : ℚ → ℚ) (row : List (Option ℚ)) (n : Nat) :
    softmaxRow e (row ++ List.replicate n none) =
      softmaxRow e row ++ List.replicate n 0 := by
  have hmap : (row ++ List.replicate n none).map (fun s => Option.elim s 0 e) =
      row.map (fun s => Option.elim s 0 e) ++ List.replicate n (0 : ℚ) := by
    rw [List.map_append, List.map_replicate]
    simp
  simp only [softmaxRow]
  rw [hmap, List.sum_append, List.sum_replicate, smul_zero, add_zero,
    List.map_append, List.map_replicate, zero_div]

theorem attnRowL_prefix {H : Nat} (P : Prims) (lim : Nat) (qj : Vec H)
    (kp vp ks vs : List (Vec H)) (hk : kp.length = vp.length)
    (hlim : lim < kp.length) :
    attnRowL P lim qj (kp ++ ks) (vp ++ vs) = attnRowL P lim qj kp vp := by
  simp only [attnRowL]
  have hsc : (List.range (kp ++ ks).length).map (fun t =>
      if t ≤ lim then some (dot qj ((kp ++ ks).getD t zeroV) / P.sqrt (H : ℚ)) else none) =
      ((List.range kp.length).map (fun t =>
        if t ≤ lim then some (dot qj (kp.getD t zeroV) / P.sqrt (H : ℚ)) else none))
      ++ List.replicate ks.length none := by
    rw [List.length_append, List.range_add, List.map_append, List.map_map]
    congr 1
    · refine List.map_congr_left (fun t ht => ?_)
      rw [List.getD_append _ _ _ t (List.mem_range.mp ht)]
    · have : ∀ s ∈ List.range ks.length,
          ((fun t => if t ≤ lim then
            some (dot qj ((kp ++ ks).getD t zeroV) / P.sqrt (H : ℚ)) else none) ∘
            fun x => kp.length + x) s = none := by
        intro s _
        have hno : ¬ (kp.length + s ≤ lim) := by omega
        simp [Function.comp, hno]
      rw [List.map_congr_left this]
      simp [List.eq_replicate_iff]
  rw [hsc, softmaxRow_append_none]
  have hlen : (softmaxRow P.exp ((List.range kp.length).map (fun t =>
      if t ≤ lim then some (dot qj (kp.getD t zeroV) / P.sqrt (H : ℚ)) else none))).length
      = vp.length := by
    rw [softmaxRow_length, List.length_map, List.length_range, hk]
  rw [List.zipWith_append _ _ _ _ _ hlen, List.sum_append,
    zipWith_smul_zero_sum _ _ (fun w hw => List.eq_of_mem_replicate hw), add_zero]

/-! ### Splitting one attention call into a prefix call and a cached call -/

theorem attn_out_eq {H : Nat} (P : Prims) (A : SingleHeadSelfAttention H)
    (xs : List (Vec H)) (p : Option (KV H)) :
    (A.forward P xs p).1 = ((List.range xs.length).map (fun j =>
      attnRow P xs.length j (((xs.map A.c_attn.apply).map qSlice).getD j zeroV)
        ((A.forward P xs p).2).1 ((A.forward P xs p).2).2)).map A.c_proj.apply := rfl

theorem attnRows_split {H : Nat} (P : Prims) (Pn S : Nat) (qx qy kx ky vx vy : List (Vec H))
    (hq : qx.length = Pn) (hk : kx.length = Pn) (hv : vx.length = Pn)
    (hqy : qy.length = S) (hky : ky.length = S) (hvy : vy.length = S) :
    (List.range (Pn + S)).map (fun j =>
      attnRow P (Pn + S) j ((qx ++ qy).getD j zeroV) (kx ++ ky) (vx ++ vy)) =
    ((List.range Pn).map (fun j =>
      attnRow P Pn j (qx.getD j zeroV) kx vx)) ++
    ((List.range S).map (fun j =>
      attnRow P S j (qy.getD j zeroV) (kx ++ ky) (vx ++ vy))) := by
  have hKL : (kx ++ ky).length = Pn + S := by
    simp [List.length_append, hk, hky]
  rw [List.range_add, List.map_append, List.map_map]
  congr 1
  · refine List.map_congr_left (fun j hj => ?_)
    have hj1 : j < Pn := List.mem_range.mp hj
    rw [List.getD_append _ _ _ j (by omega), attnRow_eq_attnRowL, attnRow_eq_attnRowL]
    have h1 : (kx ++ ky).length - (Pn + S) + j = j := by omega
    have h2 : kx.length - Pn + j = j := by omega
    rw [h1, h2]
    exact attnRowL_prefix P j _ kx vx ky vy (by omega) (by omega)
  · refine List.map_congr_left (fun s hs => ?_)
    have hs1 : s < S := List.mem_range.mp hs
    simp only [Function.comp]
    rw [List.getD_append_right _ _ _ _ (by omega)]
    have hidx : Pn + s - qx.length = s := by omega
    rw [hidx, attnRow_eq_attnRowL, attnRow_eq_attnRowL]
    have h3 : (kx ++ ky).length - (Pn + S) + (Pn + s) =
        (kx ++ ky).length - S + s := by omega
    rw [h3]

theorem attn_forward_split {H : Nat} (P : Prims) (A : SingleHeadSelfAttention H)
    (xs ys : List (Vec H)) :
    A.forward P (xs ++ ys) none =
      ((A.forward P xs none).1 ++ (A.forward P ys (some (A.forward P xs none).2)).1,
       (A.forward P ys (some (A.forward P xs none).2)).2) := by
  have hkv : (A.forward P (xs ++ ys) none).2 =
      (A.forward P ys (some (A.forward P xs none).2)).2 := by
    simp [attn_kv_none, attn_kv_some, List.map_append]
  refine Prod.ext ?_ hkv
  rw [attn_out_eq P A (xs ++ ys) none, attn_out_eq P A xs none,
    attn_out_eq P A ys (some (A.forward P xs none).2)]
  rw [hkv, attn_kv_some, attn_kv_none]
  simp only [List.map_append, List.length_append, List.length_map]
  rw [attnRows_split P xs.length ys.length
    ((xs.map A.c_attn.apply).map qSlice) ((ys.map A.c_attn.apply).map qSlice)
    ((xs.map A.c_attn.apply).map kSlice) ((ys.map A.c_attn.apply).map kSlice)
    ((xs.map A.c_attn.apply).map vSlice) ((ys.map A.c_attn.apply).map vSlice)
    (by simp) (by simp) (by simp) (by simp) (by simp) (by simp), List.map_append]

theorem block_forward_split {H F : Nat} (P : Prims) (b : DecoderBlock H F)
    (xs ys : List (Vec H)) :
    b.forward P (xs ++ ys) none =
      ((b.forward P xs none).1 ++ (b.forward P ys (some (b.forward P xs none).2)).1,
       (b.forward P ys (some (b.forward P xs none).2)).2) := by
  have hattn := attn_forward_split P b.attn (xs.map (LayerNormForward P b.ln_1))
    (ys.map (LayerNormForward P b.ln_1))
  have hA1len : ((xs.map (LayerNormForward P b.ln_1))).length =
      ((b.attn.forward P (xs.map (LayerNormForward P b.ln_1)) none).1).length := by
    rw [attn_out_length]
  simp only [DecoderBlock.forward, List.map_append]
  rw [hattn]
  dsimp only
  rw [List.zipWith_append _ _ _ _ _ hA1len, List.map_append, List.map_append,
    List.zipWith_append _ _ _ _ _ (by simp)]

theorem runLayers_split {H F : Nat} (P : Prims) (ls : List (DecoderBlock H F))
    (xp xc : List (Vec H)) :
    runLayers P ls (ls.map fun _ => none) (xp ++ xc) =
      ((runLayers P ls (ls.map fun _ => none) xp).1 ++
        (runLayers P ls ((runLayers P ls (ls.map fun _ => none) xp).2.map some) xc).1,
       (runLayers P ls ((runLayers P ls (ls.map fun _ => none) xp).2.map some) xc).2) := by
  induction ls generalizing xp xc with
  | nil => rfl
  | cons l ls ih =>
    simp only [runLayers, List.map_cons, List.headD_cons, List.tail_cons]
    rw [block_forward_split P l xp xc]
    dsimp only
    rw [ih]

/-! ### Transformer-level equations and the split lemma -/

theorem attn_kv_k_length_none {H : Nat} (P : Prims) (A : SingleHeadSelfAttention H)
    (xs : List (Vec H)) : ((A.forward P xs none).2).1.length = xs.length := by
  simp [attn_kv_none]

theorem attn_kv_v_length_none {H : Nat} (P : Prims) (A : SingleHeadSelfAttention H)
    (xs : List (Vec H)) : ((A.forward P xs none).2).2.length = xs.length := by
  simp [attn_kv_none]

theorem attn_kv_k_length_some {H : Nat} (P : Prims) (A : SingleHeadSelfAttention H)
    (xs : List (Vec H)) (pkv : KV H) :
    ((A.forward P xs (some pkv)).2).1.length = pkv.1.length + xs.length := by
  simp [attn_kv_some]

theorem attn_kv_v_length_some {H : Nat} (P : Prims) (A : SingleHeadSelfAttention H)
    (xs : List (Vec H)) (pkv : KV H) :
    ((A.forward P xs (some pkv)).2).2.length = pkv.2.length + xs.length := by
  simp [attn_kv_some]

theorem block_kv_k_length_none {H F : Nat} (P : Prims) (b : DecoderBlock H F)
    (xs : List (Vec H)) : ((b.forward P xs none).2).1.length = xs.length := by
  rw [block_kv, attn_kv_k_length_none]
  simp

theorem forward_none_eq {H F V M : Nat} (P : Prims) (t : Transformer H F V M)
    (ids : List (Fin V)) (h : ids.length ≤ M) :
    Transformer.forward P t ids none =
      some (Transformer.body P t 0 ids (t.hidden_layers.map fun _ => none)) := by
  simp [Transformer.forward, pastLen, h]

theorem forward_none_none {H F V M : Nat} (P : Prims) (t : Transformer H F V M)
    (ids : List (Fin V)) (h : M < ids.length) :
    Transformer.forward P t ids none = none := by
  simp [Transformer.forward, pastLen]
  omega

theorem forward_some_eq {H F V M : Nat} (P : Prims) (t : Transformer H F V M)
    (ids : List (Fin V)) (l : List (KV H)) (h : pastLen (some l) + ids.length ≤ M)
    (hl : t.hidden_layers.length ≤ l.length) :
    Transformer.forward P t ids (some l) =
      some (Transformer.body P t (pastLen (some l)) ids
        ((l.take t.hidden_layers.length).map some)) := by
  simp [Transformer.forward, h, hl]

theorem body_logits_length {H F V M : Nat} (P : Prims) (t : Transformer H F V M)
    (pl : Nat) (ids : List (Fin V)) (pasts : List (Option (KV H))) :
    (Transformer.body P t pl ids pasts).1.length = ids.length := by
  simp [Transformer.body, runLayers_out_length, dropoutEval, positionIds,
    List.length_zipWith, List.length_range']

theorem body_kv_count {H F V M : Nat} (P : Prims) (t : Transformer H F V M)
    (pl : Nat) (ids : List (Fin V)) (pasts : List (Option (KV H))) :
    (Transformer.body P t pl ids pasts).2.length = t.hidden_layers.length := by
  simp [Transformer.body, runLayers_kv_count]

theorem pastLen_body {H F V M : Nat} (P : Prims) (t : Transformer H F V M)
    (a : List (Fin V)) (hL : t.hidden_layers ≠ []) :
    pastLen (some ((Transformer.body P t 0 a (t.hidden_layers.map fun _ => none)).2)) =
      a.length := by
  simp only [Transformer.body]
  cases h : t.hidden_layers with
  | nil => exact absurd h hL
  | cons l0 ls =>
    simp only [h, List.map_cons, runLayers, List.headD_cons, List.tail_cons, pastLen]
    rw [block_kv_k_length_none]
    simp [dropoutEval, positionIds, List.length_zipWith, List.length_range']

theorem body_split {H F V M : Nat} (P : Prims) (t : Transformer H F V M)
    (a b : List (Fin V)) :
    Transformer.body P t 0 (a ++ b) (t.hidden_layers.map fun _ => none) =
      ((Transformer.body P t 0 a (t.hidden_layers.map fun _ => none)).1 ++
        (Transformer.body P t a.length b
          ((Transformer.body P t 0 a (t.hidden_layers.map fun _ => none)).2.map some)).1,
       (Transformer.body P t a.length b
          ((Transformer.body P t 0 a (t.hidden_layers.map fun _ => none)).2.map some)).2) := by
  have hr : List.range' 0 (a.length + b.length) =
      List.range' 0 a.length ++ List.range' a.length b.length := by
    have h0 := List.range'_append 0 a.length b.length 1
    simp only [Nat.zero_add, Nat.one_mul] at h0
    rw [Nat.add_comm a.length b.length]
    exact h0.symm
  simp only [Transformer.body, positionIds, dropoutEval, List.length_append]
  rw [hr, List.zipWith_append _ _ _ _ _ (by simp [List.length_range']),
    runLayers_split]
  dsimp only
  rw [List.map_append, List.map_append]

theorem forward_split {H F V M : Nat} (P : Prims) (t : Transformer H F V M)
    (a b : List (Fin V)) (hM : a.length + b.length ≤ M) :
    ∃ r1 : List (Vec V) × List (KV H),
      Transformer.forward P t a none = some r1 ∧
      ∃ out2 kvs2,
        Transformer.forward P t (a ++ b) none = some (r1.1 ++ out2, kvs2) ∧
        (t.hidden_layers ≠ [] →
          Transformer.forward P t b (some r1.2) = some (out2, kvs2)) := by
  refine ⟨Transformer.body P t 0 a (t.hidden_layers.map fun _ => none),
    forward_none_eq P t a (by omega), ?_⟩
  refine ⟨(Transformer.body P t a.length b
      ((Transformer.body P t 0 a (t.hidden_layers.map fun _ => none)).2.map some)).1,
    (Transformer.body P t a.length b
      ((Transformer.body P t 0 a (t.hidden_layers.map fun _ => none)).2.map some)).2, ?_, ?_⟩
  · rw [forward_none_eq P t (a ++ b) (by simp [List.length_append]; omega), body_split]
  · intro hL
    rw [forward_some_eq P t b _ (by rw [pastLen_body P t a hL]; omega)
      (by rw [body_kv_count]), pastLen_body P t a hL]
    congr 1
    congr 1
    rw [← body_kv_count P t 0 a (t.hidden_layers.map fun _ => none), List.take_length]

theorem forward_logits_length {H F V M : Nat} (P : Prims) (t : Transformer H F V M)
    (ids : List (Fin V)) (past : Option (List (KV H))) (r : List (Vec V) × List (KV H))
    (h : Transformer.forward P t ids past = some r) : r.1.length = ids.length := by
  simp only [Transformer.forward] at h
  split at h
  · split at h
    · obtain rfl := Option.some.inj h
      rw [body_logits_length]
    · split at h
      · obtain rfl := Option.some.inj h
        rw [body_logits_length]
      · exact absurd h (by simp)
  · exact absurd h (by simp)

theorem forward_kv_count {H F V M : Nat} (P : Prims) (t : Transformer H F V M)
    (ids : List (Fin V)) (past : Option (List (KV H))) (r : List (Vec V) × List (KV H))
    (h : Transformer.forward P t ids past = some r) :
    r.2.length = t.hidden_layers.length := by
  simp only [Transformer.forward] at h
  split at h
  · split at h
    · obtain rfl := Option.some.inj h
      rw [body_kv_count]
    · split at h
      · obtain rfl := Option.some.inj h
        rw [body_kv_count]
      · exact absurd h (by simp)
  · exact absurd h (by simp)

theorem forward_isSome_length {H F V M : Nat} (P : Prims) (t : Transformer H F V M)
    (ids : List (Fin V)) (r : List (Vec V) × List (KV H))
    (h : Transformer.forward P t ids none = some r) : ids.length ≤ M := by
  by_contra hc
  rw [forward_none_none P t ids (by omega)] at h
  exact Option.noConfusion h

theorem runChunksAux_spec {H F V M : Nat} (P : Prims) (t : Transformer H F V M)
    (hL : t.hidden_layers ≠ []) :
    ∀ (cs : List (List (Fin V))) (pfx : List (Fin V)) (rp : List (Vec V) × List (KV H))
      (acc : List (Vec V)),
      Transformer.forward P t pfx none = some rp →
      (pfx ++ cs.flatten).length ≤ M →
      ∃ r, Transformer.forward P t (pfx ++ cs.flatten) none = some r ∧
        runChunksAux P t cs (some rp.2) acc = some (acc ++ r.1.drop pfx.length, some r.2) := by
  intro cs
  induction cs with
  | nil =>
    intro pfx rp acc hp hM
    refine ⟨rp, by simpa using hp, ?_⟩
    have hlen : rp.1.length = pfx.length := forward_logits_length P t pfx none rp hp
    simp [runChunksAux, List.drop_eq_nil_of_le (le_of_eq hlen)]
  | cons c cs ih =>
    intro pfx rp acc hp hM
    simp only [List.flatten_cons, List.length_append] at hM
    have hM1 : pfx.length + c.length ≤ M := by omega
    obtain ⟨r1, h1, out2, kvs2, hfull, hcached⟩ := forward_split P t pfx c hM1
    obtain rfl : r1 = rp := by
      rw [h1] at hp
      exact Option.some.inj hp
    have hstep := hcached hL
    have hM2 : ((pfx ++ c) ++ cs.flatten).length ≤ M := by
      simp only [List.length_append]
      omega
    obtain ⟨r, hr, hrun⟩ := ih (pfx ++ c) (r1.1 ++ out2, kvs2) (acc ++ out2) hfull hM2
    have hr1len : r1.1.length = pfx.length := forward_logits_length P t pfx none r1 h1
    have hfulllen : (r1.1 ++ out2).length = pfx.length + c.length :=
      forward_logits_length P t (pfx ++ c) none (r1.1 ++ out2, kvs2) hfull |>.trans
        (by simp [List.length_append])
    have hout2len : out2.length = c.length := by
      simp only [List.length_append] at hfulllen
      omega
    -- structure of `r` relative to the longer prefix `pfx ++ c`
    obtain ⟨r1b, h1b, out3, kvs3, hfull3, _⟩ := forward_split P t (pfx ++ c) cs.flatten
      (by simp only [List.length_append]; omega)
    obtain rfl : r1b = (r1.1 ++ out2, kvs2) := by
      rw [h1b] at hfull
      exact Option.some.inj hfull
    rw [hr] at hfull3
    obtain rfl : r = ((r1.1 ++ out2) ++ out3, kvs3) := Option.some.inj hfull3
    refine ⟨((r1.1 ++ out2) ++ out3, kvs3), ?_, ?_⟩
    · rw [← hr]
      congr 1
      rw [List.flatten_cons, List.append_assoc]
    · have hrw : runChunksAux P t (c :: cs) (some r1.2) acc =
          runChunksAux P t cs (some kvs2) (acc ++ out2) := by
        simp [runChunksAux, hstep]
      rw [hrw, hrun]
      congr 2
      · rw [List.append_assoc]
        congr 1
        have hd1 : ((r1.1 ++ out2) ++ out3).drop pfx.length =
            out2 ++ out3 := by
          rw [List.append_assoc, ← hr1len, List.drop_left]
        have hd2 : ((r1.1 ++ out2) ++ out3).drop (pfx ++ c).length =
            out3 := by
          have : (pfx ++ c).length = (r1.1 ++ out2).length := by
            simp [List.length_append, hr1len, hout2len]
          rw [this, List.drop_left]
        rw [hd1, hd2]

/-! ### Prefix stability of logits, cache lengths, and the chunk driver -/

theorem pastLen_forward {H F V M : Nat} (P : Prims) (t : Transformer H F V M)
    (pfx : List (Fin V)) (rp : List (Vec V) × List (KV H)) (hL : t.hidden_layers ≠ [])
    (hp : Transformer.forward P t pfx none = some rp) :
    pastLen (some rp.2) = pfx.length := by
  have hlen := forward_isSome_length P t pfx rp hp
  rw [forward_none_eq P t pfx hlen] at hp
  obtain rfl := Option.some.inj hp
  exact pastLen_body P t pfx hL

theorem logits_take {H F V M : Nat} (P : Prims) (t : Transformer H F V M)
    (ids : List (Fin V)) (r : List (Vec V) × List (KV H)) (i : Nat)
    (h : Transformer.forward P t ids none = some r) :
    ∃ rp, Transformer.forward P t (ids.take i) none = some rp ∧ r.1.take i = rp.1 := by
  have hlen : ids.length ≤ M := forward_isSome_length P t ids r h
  obtain ⟨r1, h1, out2, kvs2, hfull, _⟩ := forward_split P t (ids.take i) (ids.drop i)
    (by simp only [List.length_take, List.length_drop]; omega)
  rw [List.take_append_drop] at hfull
  rw [h] at hfull
  obtain rfl : r = (r1.1 ++ out2, kvs2) := Option.some.inj hfull
  refine ⟨r1, h1, ?_⟩
  have hr1 : r1.1.length = i ⊓ ids.length := by
    rw [forward_logits_length P t _ none r1 h1, List.length_take]
  have htot : (r1.1 ++ out2).length = ids.length :=
    forward_logits_length P t ids none _ h
  have hout : out2.length = ids.length - i := by
    simp only [List.length_append] at htot
    omega
  have hnil : out2.take (i - r1.1.length) = [] := by
    apply List.eq_nil_of_length_eq_zero
    rw [List.length_take]
    omega
  rw [List.take_append_eq_append_take, List.take_of_length_le (by omega), hnil,
    List.append_nil]

theorem lastLogits_append {V : Nat} (a b : List (Vec V)) (hb : b ≠ []) :
    lastLogits (a ++ b) = lastLogits b := by
  have hb1 : 0 < b.length := List.length_pos.mpr hb
  simp only [lastLogits, List.length_append]
  rw [List.getD_append_right _ _ _ _ (by omega)]
  congr 1
  omega

theorem forward_guard_none {H F V M : Nat} (P : Prims) (t : Transformer H F V M)
    (ids : List (Fin V)) (past : Option (List (KV H)))
    (h : M < pastLen past + ids.length) :
    Transformer.forward P t ids past = none := by
  simp only [Transformer.forward]
  rw [if_neg (by omega)]

theorem block_kv_v_length_none {H F : Nat} (P : Prims) (b : DecoderBlock H F)
    (xs : List (Vec H)) : ((b.forward P xs none).2).2.length = xs.length := by
  rw [block_kv, attn_kv_v_length_none]
  simp

theorem block_kv_k_length_some {H F : Nat} (P : Prims) (b : DecoderBlock H F)
    (xs : List (Vec H)) (pkv : KV H) :
    ((b.forward P xs (some pkv)).2).1.length = pkv.1.length + xs.length := by
  rw [block_kv, attn_kv_k_length_some]
  simp

theorem block_kv_v_length_some {H F : Nat} (P : Prims) (b : DecoderBlock H F)
    (xs : List (Vec H)) (pkv : KV H) :
    ((b.forward P xs (some pkv)).2).2.length = pkv.2.length + xs.length := by
  rw [block_kv, attn_kv_v_length_some]
  simp

theorem runLayers_kv_lengths_nones {H F : Nat} (P : Prims) :
    ∀ (ls : List (DecoderBlock H F)) (x : List (Vec H)),
      ∀ kv ∈ (runLayers P ls (ls.map fun _ => none) x).2,
        kv.1.length = x.length ∧ kv.2.length = x.length := by
  intro ls
  induction ls with
  | nil =>
    intro x kv hkv
    simp [runLayers] at hkv
  | cons l ls ih =>
    intro x kv hkv
    simp only [List.map_cons, runLayers, List.headD_cons, List.tail_cons,
      List.mem_cons] at hkv
    rcases hkv with h | h
    · subst h
      exact ⟨block_kv_k_length_none P l x, block_kv_v_length_none P l x⟩
    · have := ih (l.forward P x none).1 kv h
      rwa [block_out_length] at this

theorem runLayers_kv_lengths_somes {H F : Nat} (P : Prims) (n : Nat) :
    ∀ (ls : List (DecoderBlock H F)) (l : List (KV H)) (x : List (Vec H)),
      l.length = ls.length →
      (∀ kv ∈ l, kv.1.length = n ∧ kv.2.length = n) →
      ∀ kv ∈ (runLayers P ls (l.map some) x).2,
        kv.1.length = n + x.length ∧ kv.2.length = n + x.length := by
  intro ls
  induction ls with
  | nil =>
    intro l x _ _ kv hkv
    simp [runLayers] at hkv
  | cons b ls ih =>
    intro l x hlen hent kv hkv
    cases l with
    | nil => simp at hlen
    | cons kv0 l =>
      simp only [List.map_cons, runLayers, List.headD_cons, List.tail_cons,
        List.mem_cons] at hkv
      rcases hkv with h | h
      · subst h
        have h0 := hent kv0 (by simp)
        constructor
        · rw [block_kv_k_length_some, h0.1]
        · rw [block_kv_v_length_some, h0.2]
      · have := ih l (b.forward P x (some kv0)).1 (by simpa using hlen)
          (fun kv hkv => hent kv (by simp [hkv])) kv h
        rwa [block_out_length] at this

theorem forward_kv_lengths_none {H F V M : Nat} (P : Prims) (t : Transformer H F V M)
    (ids : List (Fin V)) (r : List (Vec V) × List (KV H))
    (h : Transformer.forward P t ids none = some r) :
    ∀ kv ∈ r.2, kv.1.length = ids.length ∧ kv.2.length = ids.length := by
  have hlen := forward_isSome_length P t ids r h
  rw [forward_none_eq P t ids hlen] at h
  obtain rfl := Option.some.inj h
  intro kv hkv
  simp only [Transformer.body] at hkv
  have := runLayers_kv_lengths_nones P t.hidden_layers _ kv hkv
  simpa [dropoutEval, positionIds, List.length_zipWith, List.length_range'] using this

theorem runChunks_total {H F V M : Nat} (P : Prims) (t : Transformer H F V M)
    (hL : t.hidden_layers ≠ []) (chunks : List (List (Fin V)))
    (hch : chunks ≠ []) (hM : chunks.flatten.length ≤ M) :
    ∃ r, Transformer.forward P t chunks.flatten none = some r ∧
      runChunksAux P t chunks none [] = some (r.1, some r.2) := by
  cases chunks with
  | nil => exact absurd rfl hch
  | cons c cs =>
    have hMc : c.length ≤ M := by
      simp only [List.flatten_cons, List.length_append] at hM
      omega
    have hc := forward_none_eq P t c hMc
    obtain ⟨r, hr, hrun⟩ := runChunksAux_spec P t hL cs c
      (Transformer.body P t 0 c (t.hidden_layers.map fun _ => none))
      (Transformer.body P t 0 c (t.hidden_layers.map fun _ => none)).1 hc
      (by simpa only [List.flatten_cons] using hM)
    refine ⟨r, by simpa only [List.flatten_cons] using hr, ?_⟩
    have hstep : runChunksAux P t (c :: cs) none [] =
        runChunksAux P t cs
          (some (Transformer.body P t 0 c (t.hidden_layers.map fun _ => none)).2)
          ((Transformer.body P t 0 c (t.hidden_layers.map fun _ => none)).1) := by
      simp [runChunksAux, hc]
    rw [hstep, hrun]
    obtain ⟨rp, hp, htake⟩ := logits_take P t (c ++ cs.flatten) r c.length
      (by simpa only [List.flatten_cons] using hr)
    rw [List.take_left, hc] at hp
    obtain rfl := Option.some.inj hp
    rw [← htake, List.take_append_drop]

theorem greedy_aux_eq {H F V M : Nat} [NeZero V] (P : Prims) (t : Transformer H F V M)
    (hL : t.hidden_layers ≠ []) :
    ∀ (fuel : Nat) (pfx s : List (Fin V)) (past : Option (List (KV H))),
      s ≠ [] →
      ((pfx = [] ∧ past = none) ∨
        (∃ rp, Transformer.forward P t pfx none = some rp ∧ past = some rp.2)) →
      greedyDecodeAux P t fuel (pfx ++ s) = greedyDecodeKVAux P t fuel s past (pfx ++ s) := by
  intro fuel
  induction fuel with
  | zero =>
    intro pfx s past hs hinv
    rfl
  | succ fuel ih =>
    intro pfx s past hs hinv
    rcases hinv with ⟨rfl, rfl⟩ | ⟨rp, hrp, rfl⟩
    · simp only [List.nil_append]
      cases hfs : Transformer.forward P t s none with
      | none => simp [greedyDecodeAux, greedyDecodeKVAux, hfs]
      | some r =>
        simp only [greedyDecodeAux, greedyDecodeKVAux, hfs]
        exact ih s [argmaxV (lastLogits r.1)] (some r.2) (by simp) (Or.inr ⟨r, hfs, rfl⟩)
    · cases hfull : Transformer.forward P t (pfx ++ s) none with
      | none =>
        have hM : M < (pfx ++ s).length := by
          by_contra hc
          rw [forward_none_eq P t (pfx ++ s) (by omega)] at hfull
          exact Option.noConfusion hfull
        have hplen := pastLen_forward P t pfx rp hL hrp
        have hnone2 : Transformer.forward P t s (some rp.2) = none := by
          apply forward_guard_none
          rw [hplen]
          simpa [List.length_append] using hM
        simp [greedyDecodeAux, greedyDecodeKVAux, hfull, hnone2]
      | some r =>
        have hlen : (pfx ++ s).length ≤ M := forward_isSome_length P t _ r hfull
        obtain ⟨r1, h1, out2, kvs2, hfull2, hcached⟩ := forward_split P t pfx s
          (by simpa [List.length_append] using hlen)
        obtain rfl : r1 = rp := by
          rw [h1] at hrp
          exact Option.some.inj hrp
        rw [hfull] at hfull2
        obtain rfl : r = (r1.1 ++ out2, kvs2) := Option.some.inj hfull2
        have hstep := hcached hL
        have hout2ne : out2 ≠ [] := by
          have hl2 : out2.length = s.length := by
            have := forward_logits_length P t s (some r1.2) (out2, kvs2) hstep
            simpa using this
          intro hc
          rw [hc] at hl2
          simp only [List.length_nil] at hl2
          exact hs (List.length_eq_zero.mp hl2.symm)
        have hlast : lastLogits (r1.1 ++ out2) = lastLogits out2 :=
          lastLogits_append r1.1 out2 hout2ne
        simp only [greedyDecodeAux, greedyDecodeKVAux, hfull, hstep]
        rw [hlast]
        exact ih (pfx ++ s) [argmaxV (lastLogits out2)] (some kvs2) (by simp)
          (Or.inr ⟨(r1.1 ++ out2, kvs2), hfull, rfl⟩)

/-! ### A concrete separation between the two layer-norm variants -/

theorem nnLN_ne_specNorm :
    nnLayerNormForward P0 (ln0 2) x2 ≠ specNormalize P0 (ln0 2) x2 := by
  intro h
  have h0 := congrFun h ⟨0, by omega⟩
  simp only [nnLayerNormForward, specNormalize, vecMean, P0, ln0, x2,
    Fin.sum_univ_two] at h0
  norm_num at h0

/-! ## The claims -/

/-- C4: in incremental mode with `P` cached positions and `S` new tokens, the
causal mask entry for new query row `j` and key column `t` (the bottom `S`
rows of a `(P+S) × (P+S)` lower-triangular matrix) is set exactly when
`t ≤ P + j`: row `j` attends to the `P` prior positions and to new positions
`0..j`, never to a later position. -/
theorem c4_causal_mask (Pn S j tt : Nat) (hj : j < S) (ht : tt < Pn + S) :
    maskEntry (Pn + S) S j tt = true ↔ tt ≤ Pn + j := by
  simp only [maskEntry, trilEntry, decide_eq_true_eq]
  omega

/-- Witness for C4 at `P = 2`, `S = 3`, `j = 1`, `t = 2`. -/
theorem c4_witness : maskEntry (2 + 3) 3 1 2 = true ↔ 2 ≤ 2 + 1 :=
  c4_causal_mask 2 3 1 2 (by omega) (by omega)

/-- C5: the decoder layer computes `xA = Normalize(x)`, `a = Attention(xA, cache)`,
`xB = xA + a` (the attention residual is added to the *normalized* value, not
the original input), `xC = Normalize(xB)`, `out = xC + FeedForward(xC)`:
`DecoderBlock.forward` coincides with this composition. -/
theorem c5_decoder_layer_wiring {H F : Nat} (P : Prims) (b : DecoderBlock H F)
    (xs : List (Vec H)) (cache : Option (KV H)) :
    b.forward P xs cache = decoderLayerSpec P b xs cache := rfl

/-- C6: for `T` input tokens the position ids are exactly
`[cache_length, …, cache_length + T - 1]`, where `cache_length` is `0` with
no prior cache and the first cache entry's stored length in incremental
mode. -/
theorem c6_position_ids {H : Nat} (pl T j : Nat) (hj : j < T) :
    (positionIds pl T).length = T ∧ (positionIds pl T).getD j 0 = pl + j ∧
    pastLen (H := H) none = 0 ∧
    (∀ (kv : KV H) (rest : List (KV H)), pastLen (some (kv :: rest)) = kv.1.length) := by
  refine ⟨List.length_range' _ _ _, ?_, rfl, fun kv rest => rfl⟩
  rw [List.getD_eq_getElem _ _ (by simp [positionIds, List.length_range']; omega)]
  simp [positionIds, List.getElem_range']

/-- Witness for C6 at `cache_length = 5`, `T = 3`, `j = 1`. -/
theorem c6_witness :
    (positionIds 5 3).length = 3 ∧ (positionIds 5 3).getD 1 0 = 5 + 1 ∧
    pastLen (H := 1) none = 0 ∧
    (∀ (kv : KV 1) (rest : List (KV 1)), pastLen (some (kv :: rest)) = kv.1.length) :=
  c6_position_ids 5 3 1 (by omega)

/-- C9 (counterexample): the claim says a forward call with per-layer cache
entries of inconsistent lengths across layers fails with an error; here the
two layers receive caches of lengths 1 and 2, yet `Transformer.forward`
succeeds (returns a result, not an error). -/
theorem c9_counterexample :
    kv1.1.length ≠ kv2.1.length ∧
    (Transformer.forward P0 tf2 [t0] (some [kv1, kv2])).isSome = true := by
  exact ⟨by decide, rfl⟩

/-- C9 (amended): `Transformer.forward` performs no cross-layer cache
consistency validation.  Whenever the supplied cache list is at least as
long as the layer stack and the position ids derived from *layer 0's* cache
length stay within `max_seq_len`, the call succeeds — regardless of whether
the per-layer cache lengths agree. -/
theorem c9_no_cross_layer_validation {H F V M : Nat} (P : Prims)
    (t : Transformer H F V M) (ids : List (Fin V)) (l : List (KV H))
    (hlen : t.hidden_layers.length ≤ l.length)
    (hM : pastLen (some l) + ids.length ≤ M) :
    (Transformer.forward P t ids (some l)).isSome = true := by
  rw [forward_some_eq P t ids l hM hlen]
  rfl

/-- Witness for C9 at the inconsistent cache `[kv1, kv2]` (lengths 1 and 2). -/
theorem c9_witness : (Transformer.forward P0 tf2 [t0] (some [kv1, kv2])).isSome = true :=
  c9_no_cross_layer_validation P0 tf2 [t0] [kv1, kv2] (by decide) (by decide)

/-- C10: in incremental mode the returned `(k, v)` pair of length `P + S`
contains the supplied `(past_k, past_v)` *exactly unchanged* as its first
`P` positions (the new entry is the concatenation of the old cache with the
newly computed keys/values; old positions are never recomputed). -/
theorem c10_cache_prefix_preservation {H : Nat} (P : Prims)
    (A : SingleHeadSelfAttention H) (xs pk pv : List (Vec H)) :
    ((A.forward P xs (some (pk, pv))).2).1.take pk.length = pk ∧
    ((A.forward P xs (some (pk, pv))).2).2.take pv.length = pv ∧
    ((A.forward P xs (some (pk, pv))).2).1.length = pk.length + xs.length ∧
    ((A.forward P xs (some (pk, pv))).2).2.length = pv.length + xs.length := by
  refine ⟨?_, ?_, attn_kv_k_length_some P A xs (pk, pv),
    attn_kv_v_length_some P A xs (pk, pv)⟩
  · simp [attn_kv_some, List.take_left]
  · simp [attn_kv_some, List.take_left]

/-- C3 (counterexample): the model's final normalizer (`nn.LayerNorm`, the
`ln_f` applied before the output projection) does not compute
`(x - mean) / (std + eps) * scale + shift`: at the hidden vector `(0, 2)`
with default parameters the two formulas give different values, because
`nn.LayerNorm` adds `eps` to the (biased) variance before the square root. -/
theorem c3_counterexample :
    nnLayerNormForward P0 (ln0 2) x2 ≠ specNormalize P0 (ln0 2) x2 :=
  nnLN_ne_specNorm

/-- C3 (amended): every normalization *inside the decoder blocks* (the
notebook's custom `LayerNorm`) computes `(x - mean) / (std + eps) * scale +
shift` with `eps` added directly to the standard deviation; the *final*
normalizer `ln_f`, however, is `torch.nn.LayerNorm`, which adds `eps` to the
biased variance before the square root and therefore does not satisfy that
formula. -/
theorem c3_normalization_formulas :
    (∀ (Hd : Nat) (P : Prims) (ln : LNParams Hd) (x : Vec Hd),
      LayerNormForward P ln x = specNormalize P ln x) ∧
    nnLayerNormForward P0 (ln0 2) x2 ≠ specNormalize P0 (ln0 2) x2 :=
  ⟨fun _ _ _ _ => rfl, nnLN_ne_specNorm⟩

/-- C7: causality.  Two stateless forward passes whose inputs agree on the
first `i` positions produce logits that agree (exactly) at every position
`< i`, whatever the tokens after position `i` are. -/
theorem c7_causality {H F V M : Nat} (P : Prims) (t : Transformer H F V M)
    (ids1 ids2 : List (Fin V)) (i : Nat)
    (h1 : ids1.length ≤ M) (h2 : ids2.length ≤ M)
    (hpre : ids1.take i = ids2.take i) :
    ∃ r1 r2, Transformer.forward P t ids1 none = some r1 ∧
      Transformer.forward P t ids2 none = some r2 ∧ r1.1.take i = r2.1.take i := by
  have e1 := forward_none_eq P t ids1 h1
  have e2 := forward_none_eq P t ids2 h2
  obtain ⟨rp1, hp1, ht1⟩ := logits_take P t ids1 _ i e1
  obtain ⟨rp2, hp2, ht2⟩ := logits_take P t ids2 _ i e2
  refine ⟨_, _, e1, e2, ?_⟩
  rw [ht1, ht2]
  rw [hpre] at hp1
  rw [hp1] at hp2
  exact congrArg Prod.fst (Option.some.inj hp2)

/-- Witness for C7: two length-2 inputs agreeing at position 0 and differing
at position 1. -/
theorem c7_witness :
    ∃ r1 r2, Transformer.forward P0 tf3 [0, 0] none = some r1 ∧
      Transformer.forward P0 tf3 [0, 1] none = some r2 ∧
      r1.1.take 1 = r2.1.take 1 :=
  c7_causality P0 tf3 [0, 0] [0, 1] 1 (by decide) (by decide) (by decide)

/-- C1: cache/no-cache equivalence.  For any model with at least one decoder
layer and any chunking of a token sequence of length `T ≥ 1` that fits in
the position table, the stateless pass on the full sequence succeeds, the
incremental pass (threading the returned per-layer cache forward, one or
more tokens per step) produces *exactly* the same logits at every position
(exact equality is stronger than the `1e-5` tolerance), and after any
nonempty prefix of the chunking the accumulated per-layer `(Key, Value)`
cache equals the `(Key, Value)` lists computed by the non-cached pass on
that token prefix. -/
theorem c1_cache_nocache_equivalence {H F V M : Nat} (P : Prims)
    (t : Transformer H F V M) (chunks : List (List (Fin V)))
    (hL : t.hidden_layers ≠ []) (hne : chunks ≠ [])
    (hT : 1 ≤ chunks.flatten.length) (hM : chunks.flatten.length ≤ M) :
    (∃ r, Transformer.forward P t chunks.flatten none = some r ∧
      runChunksAux P t chunks none [] = some (r.1, some r.2)) ∧
    (∀ kk, kk ≠ 0 →
      ∃ rk, Transformer.forward P t (chunks.take kk).flatten none = some rk ∧
        runChunksAux P t (chunks.take kk) none [] = some (rk.1, some rk.2)) := by
  have key : ∀ kk, kk ≠ 0 →
      ∃ rk, Transformer.forward P t (chunks.take kk).flatten none = some rk ∧
        runChunksAux P t (chunks.take kk) none [] = some (rk.1, some rk.2) := by
    intro kk hkk
    have htk : chunks.take kk ≠ [] := by
      rw [Ne, List.take_eq_nil_iff]
      push_neg
      exact ⟨hkk, hne⟩
    have hMk : (chunks.take kk).flatten.length ≤ M := by
      have hsplit : (chunks.take kk).flatten ++ (chunks.drop kk).flatten =
          chunks.flatten := by
        rw [← List.flatten_append, List.take_append_drop]
      have hle : (chunks.take kk).flatten.length ≤ chunks.flatten.length := by
        rw [← hsplit, List.length_append]
        omega
      omega
    exact runChunks_total P t hL (chunks.take kk) htk hMk
  refine ⟨?_, key⟩
  have h := key chunks.length (fun hc => hne (List.length_eq_zero.mp hc))
  rwa [List.take_length] at h

/-- Witness for C1: the length-2 sequence `[t0, t0]` processed in two
single-token chunks on the one-layer model `tf1`. -/
theorem c1_witness :
    ∃ r, Transformer.forward P0 tf1 [[t0], [t0]].flatten none = some r ∧
      runChunksAux P0 tf1 [[t0], [t0]] none [] = some (r.1, some r.2) :=
  (c1_cache_nocache_equivalence P0 tf1 [[t0], [t0]] (by simp [tf1]) (by simp)
    (by decide) (by decide)).1

/-- C2: greedy decoding with full recomputation and greedy decoding with the
KV cache produce the same generated token sequence for the same prompt,
model parameters and target length (for a model with at least one decoder
layer and a nonempty prompt). -/
theorem c2_greedy_decode_equiv {H F V M : Nat} [NeZero V] (P : Prims)
    (t : Transformer H F V M) (input_ids : List (Fin V)) (max_len : Nat)
    (hL : t.hidden_layers ≠ []) (hids : input_ids ≠ []) :
    greedy_decode P t input_ids max_len =
      greedy_decode_with_kv_cache P t input_ids max_len := by
  unfold greedy_decode greedy_decode_with_kv_cache
  have h := greedy_aux_eq P t hL (max_len - input_ids.length) [] input_ids none hids
    (Or.inl ⟨rfl, rfl⟩)
  simpa using h

/-- Witness for C2: decoding from the one-token prompt `[t0]` to length 3. -/
theorem c2_witness :
    greedy_decode P0 tf1 [t0] 3 = greedy_decode_with_kv_cache P0 tf1 [t0] 3 :=
  c2_greedy_decode_equiv P0 tf1 [t0] 3 (by simp [tf1]) (by simp)

/-- C8: cache length invariant.  After incrementally processing any nonempty
prefix (`kk ≥ 1` chunks) of any chunking of a sequence that fits in the
position table, every layer's cache entry holds Key and Value lists whose
position-length is exactly the number of tokens processed so far — in
particular all layers' entries share the same total length at every
observation point, and after the full sequence it is the sequence length. -/
theorem c8_cache_length_invariant {H F V M : Nat} (P : Prims)
    (t : Transformer H F V M) (chunks : List (List (Fin V))) (kk : Nat)
    (hL : t.hidden_layers ≠ []) (hk : kk ≠ 0) (hne : chunks ≠ [])
    (hM : chunks.flatten.length ≤ M) :
    ∃ lg kvs, runChunksAux P t (chunks.take kk) none [] = some (lg, some kvs) ∧
      ∀ kv ∈ kvs, kv.1.length = (chunks.take kk).flatten.length ∧
        kv.2.length = (chunks.take kk).flatten.length := by
  have htk : chunks.take kk ≠ [] := by
    rw [Ne, List.take_eq_nil_iff]
    push_neg
    exact ⟨hk, hne⟩
  have hMk : (chunks.take kk).flatten.length ≤ M := by
    have hsplit : (chunks.take kk).flatten ++ (chunks.drop kk).flatten =
        chunks.flatten := by
      rw [← List.flatten_append, List.take_append_drop]
    have hle : (chunks.take kk).flatten.length ≤ chunks.flatten.length := by
      rw [← hsplit, List.length_append]
      omega
    omega
  obtain ⟨r, hr, hrun⟩ := runChunks_total P t hL (chunks.take kk) htk hMk
  exact ⟨r.1, r.2, hrun, forward_kv_lengths_none P t _ r hr⟩

/-- Witness for C8: the two-chunk processing of `[t0, t0]` on `tf1`, observed
after the first chunk. -/
theorem c8_witness :
    ∃ lg kvs, runChunksAux P0 tf1 ([[t0], [t0]].take 1) none [] = some (lg, some kvs) ∧
      ∀ kv ∈ kvs, kv.1.length = ([[t0], [t0]].take 1).flatten.length ∧
        kv.2.length = ([[t0], [t0]].take 1).flatten.length :=
  c8_cache_length_invariant P0 tf1 [[t0], [t0]] 1 (by simp [tf1]) (by decide)
    (by simp) (by decide)
